import Mathlib

/-!
Verification of the belief-propagation engine in
`src/02/lab02_costantini_kooijman.py`.

The development shallowly embeds the data model and the message
computations of the source file:

* numpy 1-D arrays (messages, `observed_state`) become `List ℚ`
  (or `List ℝ` where the source takes logarithms);
* numpy nd-arrays (factor potentials) become functions
  `(Fin r → ℕ) → ℚ` together with an explicit shape `d : Fin r → ℕ`;
* the node inbox (a Python dict keyed by neighbour objects) becomes a
  function `ν → Option (List α)` over an abstract node-identity type `ν`;
* the two-sweep scheduler `sum_product` is embedded as the list of
  directed sends it performs (the pairs sent depend only on the graph
  topology and the node ordering, never on message contents), plus a
  fold that delivers the corresponding messages.

Definitions come first, theorems afterwards.
-/

namespace Lab2

/-- Elementwise product of a list of equal-length vectors, mirroring
`np.multiply.reduce(vectors)`: the first vector is the initial
accumulator and the remaining ones are multiplied in elementwise.
The empty case never occurs in the source (numpy raises there). -/
def listProd : List (List ℚ) → List ℚ
  | [] => []
  | v :: vs => vs.foldl (fun acc w => List.zipWith (· * ·) acc w) v

/-- Elementwise sum of a list of equal-length vectors, mirroring
`msg = 0; for f in nbs: msg += self.in_msgs[f]` (a scalar `0` plus the
first array broadcasts to that array). -/
def listSumQ : List (List ℚ) → List ℚ
  | [] => []
  | v :: vs => vs.foldl (fun acc w => List.zipWith (· + ·) acc w) v

/-- Entrywise description of the product of a bag of vectors of common
length `L`: entry `i` is the product of all the vectors' `i`-th entries.
This is the "elementwise product" the specification speaks about; the
theorems below connect it to the fold actually performed by the code. -/
def pointwiseProd (L : ℕ) (msgs : List (List ℚ)) : List ℚ :=
  (List.range L).map (fun i => (msgs.map (fun m => m.getD i 0)).prod)

/-- Entrywise description of the sum of a bag of vectors of common
length `L`: entry `i` is the sum of all the vectors' `i`-th entries. -/
def pointwiseSum (L : ℕ) (msgs : List (List ℚ)) : List ℚ :=
  (List.range L).map (fun i => (msgs.map (fun m => m.getD i 0)).sum)

/-- State of a `Variable` node (`class Variable(Node)`).  The type `ν`
stands for node identity (Python object identity); `α` is the scalar
type of the stored vectors (ℚ for the probability domain, ℝ once
logarithms enter in max-sum mode).  The base-class `Node` fields
`neighbours`, `in_msgs` and `pending` are inlined here. -/
structure Var (α : Type) (ν : Type) where
  num_states : ℕ
  latent : Bool
  observed_state : List α
  neighbours : List ν
  in_msgs : ν → Option (List α)
  pending : Finset ν

/-- A freshly constructed latent variable: `Variable.__init__` sets
`latent = True` and `reset` then gives `observed_state = np.ones`. -/
def Var.make (num_states : ℕ) (neighbours : List ν) : Var ℚ ν :=
  { num_states := num_states
    latent := true
    observed_state := List.replicate num_states 1
    neighbours := neighbours
    in_msgs := fun _ => none
    pending := ∅ }

/-- The epsilon the source writes into non-observed entries
(`self.observed_state[:] = 0.000001`).  The Python literal is a binary
float; it is modelled by the exact rational, which no claim's truth
depends on. -/
def obsEps : ℚ := 1 / 1000000

/-- Embedding of `Variable.set_observed(observed_state)`: the whole
vector is overwritten with `obsEps` in place, then index `k` is set to
`1`; the variable becomes non-latent.  The caller must supply
`k < num_states` (numpy raises `IndexError` otherwise). -/
def Var.set_observed (v : Var ℚ ν) (k : ℕ) : Var ℚ ν :=
  { v with
    latent := false
    observed_state := (v.observed_state.map (fun _ => obsEps)).set k 1 }

/-- Embedding of `Variable.set_latent()`. -/
def Var.set_latent (v : Var ℚ ν) : Var ℚ ν :=
  { v with
    latent := true
    observed_state := v.observed_state.map (fun _ => 1) }

/-- Embedding of `Variable.reset()`: the base-class part clears
`in_msgs` and `pending`, the subclass part replaces `observed_state`
with `np.ones(num_states)`.  The `latent` flag is not touched. -/
def Var.reset (v : Var ℚ ν) : Var ℚ ν :=
  { v with
    observed_state := List.replicate v.num_states 1
    in_msgs := fun _ => none
    pending := ∅ }

/-- Embedding of `Node.receive_msg(other, msg)` for variables: store
the message under the sender's key, overwriting, and mark every other
neighbour pending. -/
def Var.receive_msg [DecidableEq ν] (v : Var α ν) (other : ν) (msg : List α) :
    Var α ν :=
  { v with
    in_msgs := fun x => if x = other then some msg else v.in_msgs x
    pending := v.pending ∪ (v.neighbours.toFinset.erase other) }

/-- The vector delivered by `Variable.send_sp_msg(other)` (the full
call also hands this vector to `other.receive_msg` and discards `other`
from the sender's `pending`; those effects are on other state and are
not needed by the claims about the delivered message). -/
def Var.sendSpValue [DecidableEq ν] (v : Var ℚ ν) (tgt : ν) : List ℚ :=
  if v.latent = false then v.observed_state
  else
    let nbs := v.neighbours.filter (fun nb => nb ≠ tgt)
    if nbs = [] then List.replicate v.num_states 1
    else listProd (nbs.map (fun nb => (v.in_msgs nb).getD []))

/-- The vector delivered by `Variable.send_ms_msg(other)`. -/
def Var.sendMsValue [DecidableEq ν] (v : Var ℚ ν) (tgt : ν) : List ℚ :=
  if v.latent = false then v.observed_state
  else
    let nbs := v.neighbours.filter (fun nb => nb ≠ tgt)
    if nbs = [] then List.replicate v.num_states 0
    else listSumQ (nbs.map (fun nb => (v.in_msgs nb).getD []))

/-- Embedding of `Variable.marginal(Z=None)`.  `prob` multiplies the
inbox messages of all neighbours; the guard `if not Z:` is Python
falsiness, so both `None` and a supplied `0` trigger the recomputation
`Z = sum(prob)`.  The division `prob / Z` is performed unconditionally;
at `Z = 0` numpy silently produces NaN entries (no exception), which
the total rational division (`x / 0 = 0`) stands in for here. -/
def Var.marginal (v : Var ℚ ν) (Zopt : Option ℚ) : List ℚ × ℚ :=
  let prob := listProd (v.neighbours.map (fun nb => (v.in_msgs nb).getD []))
  let Z := match Zopt with
    | none => prob.sum
    | some z => if z = 0 then prob.sum else z
  (prob.map (fun x => x / Z), Z)

/-- A concrete latent variable used to witness the latent branches. -/
def vW : Var ℚ ℕ :=
  { num_states := 2
    latent := true
    observed_state := [1, 1]
    neighbours := [0, 1]
    in_msgs := fun n => if n = 0 then some [2, 3] else none
    pending := ∅ }

/-- A concrete variable whose single inbox message is `[2, 2]`. -/
def vC6 : Var ℚ ℕ :=
  { num_states := 2
    latent := true
    observed_state := [1, 1]
    neighbours := [0]
    in_msgs := fun n => if n = 0 then some [2, 2] else none
    pending := ∅ }

/-- A concrete variable whose single inbox message is all-zero, so
the computed normalization constant is `Z = 0`. -/
def vC7 : Var ℚ ℕ :=
  { num_states := 2
    latent := true
    observed_state := [1, 1]
    neighbours := [0]
    in_msgs := fun n => if n = 0 then some [0, 0] else none
    pending := ∅ }

/-! ### Factor messages (sum-product)

A factor with `n + 1` neighbours is embedded as a shape `d : Fin (n+1) → ℕ`
together with its potential `f : (Fin (n+1) → ℕ) → ℚ`; axis `i`
corresponds to the `i`-th stored neighbour, whose inbox message is
`m i : ℕ → ℚ`.  The target neighbour is the axis index `t` (the code's
`other_i = self.neighbours.index(other)`), so the non-target neighbour
list `nbs` is the increasing enumeration `t.succAbove : Fin n → Fin (n+1)`
of the other axes. -/

/-- The outer product `reduce(np.multiply, np.ix_(*vectors))` of the
non-target messages: a rank-`k` tensor whose `j`-th axis carries the
`j`-th vector. -/
def outerProd (k : ℕ) (v : Fin k → ℕ → ℚ) : (Fin k → ℕ) → ℚ :=
  fun y => ∏ j : Fin k, v j (y j)

/-- Embedding of `np.tensordot(self.f, mm, axes=(f_axes, range(mm.ndim)))`
where `f_axes` lists the potential's axes other than `t` in increasing
order: entry `b` sums, over the box of the contracted axes, the
potential with axis `t` pinned to `b` (`Fin.insertNth` realizes exactly
the pairing of `f_axes[j]` with axis `j` of `mm`) times `mm`. -/
def tensordotExcept (n : ℕ) (d : Fin (n + 1) → ℕ)
    (f : (Fin (n + 1) → ℕ) → ℚ) (t : Fin (n + 1))
    (g : (Fin n → ℕ) → ℚ) : ℕ → ℚ :=
  fun b =>
    ∑ y ∈ Fintype.piFinset (fun j : Fin n => Finset.range (d (t.succAbove j))),
      f (t.insertNth b y) * g y

/-- Embedding of `Factor.send_sp_msg(other)`: if `other` is the only
neighbour (`len(nbs) == 0`, i.e. rank 1) the message is the potential
array itself; otherwise the potential is contracted against the outer
product of the other neighbours' inbox messages. -/
def factorSendSp : (n : ℕ) → (Fin (n + 1) → ℕ) → ((Fin (n + 1) → ℕ) → ℚ) →
    (Fin (n + 1) → ℕ → ℚ) → Fin (n + 1) → ℕ → ℚ
  | 0, _, f, _, _ => fun b => f (fun _ => b)
  | n + 1, d, f, m, t =>
      tensordotExcept (n + 1) d f t (outerProd (n + 1) (fun j => m (t.succAbove j)))

/-- The marginalization the specification describes, written pointwise:
entry `b` of the message to `t` is the sum over all joint assignments
`z` of the factor's neighbours that put `t`'s variable in state `b` of
the potential at `z` times the product, over the neighbours other than
`t`, of their stored message evaluated at their coordinate of `z`. -/
def specFactorMsg (n : ℕ) (d : Fin (n + 1) → ℕ)
    (f : (Fin (n + 1) → ℕ) → ℚ) (m : Fin (n + 1) → ℕ → ℚ)
    (t : Fin (n + 1)) : ℕ → ℚ :=
  fun b =>
    ∑ z ∈ Fintype.piFinset (fun i : Fin (n + 1) => Finset.range (d i)),
      if z t = b then
        f z * ∏ i : Fin (n + 1), (if i = t then 1 else m i (z i))
      else 0

/-! ### Factor messages (max-sum) -/

/-- Maximum of `g 0, …, g (n-1)`, embedding `np.amax` along an axis of
length `n`.  An empty axis (`n = 0`) is a numpy error and never occurs
here: every axis length is some variable's `num_states ≥ 1`. -/
def amaxRange : ℕ → (ℕ → ℝ) → ℝ
  | 0, g => g 0
  | n + 1, g => max (amaxRange n g) (g n)

/-- Embedding of `Factor.send_ms_msg(other)` for a rank-2 factor with
equal axis lengths `d0 = d1` (unequal lengths make the numpy broadcast
`np.log(self.f) + mm` raise; every factor of the repository's network
is over binary variables).  Tracing the code: `nbs` is the single
non-target neighbour, `np.tile(msg, [1])` keeps its message `mm` as a
rank-1 array, `np.rollaxis(t, 0, i)` is the identity here, and
`np.log(self.f) + mm` broadcasts `mm` along the potential's trailing
(second) axis whichever axis the message's neighbour actually owns;
finally `np.amax` reduces over every axis except `other_i`.  For
`t = 0` (message to the first neighbour) the trailing axis is the
correct one; for `t = 1` the code adds `m0` indexed by the target's
own state `b` instead of the summed-out state `a`. -/
noncomputable def factorSendMs2 (d0 d1 : ℕ) (f : ℕ → ℕ → ℝ) (m0 m1 : ℕ → ℝ)
    (t : Fin 2) : ℕ → ℝ :=
  if t = 0 then fun a => amaxRange d1 (fun b => Real.log (f a b) + m1 b)
  else fun b => amaxRange d0 (fun a => Real.log (f a b) + m0 b)

/-- Modelled from the spec: the max-sum factor message of §4.3, in
which each non-target message is broadcast along its own neighbour's
potential axis before the elementwise sum with `log(potential)` and the
max-reduction over every axis except the target's.  Rank-2 instance,
for comparison with `factorSendMs2`. -/
noncomputable def factorSpecMs2 (d0 d1 : ℕ) (f : ℕ → ℕ → ℝ) (m0 m1 : ℕ → ℝ)
    (t : Fin 2) : ℕ → ℝ :=
  if t = 0 then fun a => amaxRange d1 (fun b => Real.log (f a b) + m1 b)
  else fun b => amaxRange d0 (fun a => Real.log (f a b) + m0 a)

/-- Embedding of the `len(nbs) == 0` branch of `Factor.send_ms_msg`
(rank-1 factor): the message is `np.log(self.f)` elementwise. -/
noncomputable def factor1SendMs (f : List ℝ) : List ℝ :=
  f.map Real.log

/-! ### Factor construction (`Factor.__init__`) -/

/-- One step of the registration loop in `Factor.__init__`: for each
neighbour (paired with the corresponding axis length of the potential)
the assertion `f.shape[nb_ind] == nb.num_states` runs first; on success
the bidirectional edge is registered — modelled by appending the
factor's name to the neighbour's list in the environment — and the loop
continues; on failure the constructor raises at once, keeping the
registrations already made.  Returns the final environment and whether
construction succeeded. -/
def initLoop [DecidableEq ι] (numStates : ι → ℕ) (fname : String) :
    List (ι × ℕ) → (ι → List String) → (ι → List String) × Bool
  | [], env => (env, true)
  | (nb, dim) :: rest, env =>
      if dim = numStates nb then
        initLoop numStates fname rest
          (fun x => if x = nb then env x ++ [fname] else env x)
      else (env, false)

/-- Embedding of `Factor.__init__`: the rank assertion
`len(neighbours) == f.ndim` runs before any registration; then the
per-neighbour loop above.  `shape` is `f.shape` as a list. -/
def factorInit [DecidableEq ι] (numStates : ι → ℕ) (fname : String)
    (shape : List ℕ) (nbs : List ι) (env : ι → List String) :
    (ι → List String) × Bool :=
  if nbs.length = shape.length then initLoop numStates fname (nbs.zip shape) env
  else (env, false)

/-- Appending `fname` to each listed neighbour's list in order; used to
state how far `initLoop` got before failing. -/
def appendAll [DecidableEq ι] (fname : String) :
    List ι → (ι → List String) → (ι → List String)
  | [], env => env
  | nb :: rest, env =>
      appendAll fname rest (fun x => if x = nb then env x ++ [fname] else env x)

/-- The per-axis shape check of `Factor.__init__`. -/
def axisOk (numStates : ι → ℕ) (p : ι × ℕ) : Bool :=
  p.2 = numStates p.1

/-! ### The two-sweep scheduler (`sum_product`)

Which messages `sum_product(node_list)` sends depends only on the node
ordering and the neighbour lists, never on message contents, so the
schedule is embedded as the list of directed `(sender, receiver)` pairs
in execution order.  The middle step of `sum_product` (adding each
structural leaf's sole neighbour to its `pending` set) performs no
send and touches no inbox. -/

/-- One sweep: `for i, node in enumerate(node_list): for neighbour in
(n for n in node.neighbours if not n in node_list[:i]): send`.  The
accumulator `seen` carries the already-visited prefix. -/
def sweepSends [DecidableEq ν] (nbrs : ν → List ν) :
    List ν → List ν → List (ν × ν)
  | _, [] => []
  | seen, node :: rest =>
      ((nbrs node).filter (fun nb => nb ∉ seen)).map (fun nb => (node, nb))
        ++ sweepSends nbrs (seen ++ [node]) rest

/-- The sends of a full `sum_product(node_list)` run: the forward sweep
over the list, then the backward sweep over the reversed list. -/
def schedulerSends [DecidableEq ν] (nbrs : ν → List ν) (l : List ν) :
    List (ν × ν) :=
  sweepSends nbrs [] l ++ sweepSends nbrs [] l.reverse

/-! ### The concrete two-variable chain (claim C9)

Nodes `X1 — f1`, `X1 — f12 — X2`: binary variables, prior
`f1 = [0.5, 0.5]` on `X1`, pairwise `f12 = [[0.9, 0.1], [0.2, 0.8]]`
with rows indexed by `X1` and columns by `X2`.  Constructing `f1`
before `f12` gives `X1.neighbours = [f1, f12]`. -/

inductive CN | X1 | X2 | F1 | F12
deriving DecidableEq, Fintype

/-- Neighbour lists of the chain (construction order `f1`, `f12`). -/
def nbrsC : CN → List CN
  | CN.X1 => [CN.F1, CN.F12]
  | CN.X2 => [CN.F12]
  | CN.F1 => [CN.X1]
  | CN.F12 => [CN.X1, CN.X2]

/-- A valid linearization of the chain (leaves first). -/
def chainOrder : List CN := [CN.F1, CN.X2, CN.X1, CN.F12]

/-- The prior potential `f1 = [0.5, 0.5]`. -/
def f1Q : ℕ → ℚ := fun _ => 1 / 2

/-- The pairwise potential `f12 = [[0.9, 0.1], [0.2, 0.8]]`, rows
indexed by `X1`'s state, columns by `X2`'s state. -/
def f12Q : ℕ → ℕ → ℚ := fun a b =>
  if a = 0 then (if b = 0 then 9 / 10 else 1 / 10)
  else (if b = 0 then 2 / 10 else 8 / 10)

/-- A stored optional message as an index function. -/
def msgFun (o : Option (List ℚ)) : ℕ → ℚ :=
  fun i => (o.getD []).getD i 0

/-- A length-2 message function back as a list (all chain variables
are binary). -/
def funToList2 (g : ℕ → ℚ) : List ℚ :=
  [g 0, g 1]

/-- Global sum-product state: receiver ↦ sender ↦ stored message. -/
def SpState : Type := CN → CN → Option (List ℚ)

/-- The `Variable` view of a chain variable under a given state. -/
def varOf (s : SpState) (x : CN) : Var ℚ CN :=
  { num_states := 2
    latent := true
    observed_state := List.replicate 2 1
    neighbours := nbrsC x
    in_msgs := s x
    pending := ∅ }

/-- The sum-product message each chain node sends to a target, per the
node's `send_sp_msg`.  `F1` is rank 1 (its only send, to `X1`, has
`nbs = []`); `F12` is rank 2 with `other_i` 0 for `X1` and 1 for `X2`. -/
def spMsg (s : SpState) : CN → CN → List ℚ
  | CN.X1, tgt => (varOf s CN.X1).sendSpValue tgt
  | CN.X2, tgt => (varOf s CN.X2).sendSpValue tgt
  | CN.F1, _ =>
      funToList2 (factorSendSp 0 (fun _ => 2) (fun z => f1Q (z 0))
        (fun _ => msgFun (s CN.F1 CN.X1)) 0)
  | CN.F12, tgt =>
      funToList2 (factorSendSp 1 (fun _ => 2) (fun z => f12Q (z 0) (z 1))
        (fun i => if i = 0 then msgFun (s CN.F12 CN.X1)
                  else msgFun (s CN.F12 CN.X2))
        (if tgt = CN.X1 then 0 else 1))

/-- Delivering one send: `receiver.receive_msg(sender, msg)` stores the
message under the sender's key. -/
def spStep (s : SpState) (p : CN × CN) : SpState :=
  fun r snd =>
    if r = p.2 ∧ snd = p.1 then some (spMsg s p.1 p.2) else s r snd

/-- Initial state: all inboxes empty. -/
def spInit : SpState := fun _ _ => none

/-- State after running `sum_product(chainOrder)` in sum-product mode. -/
def spFinal : SpState :=
  (schedulerSends nbrsC chainOrder).foldl spStep spInit

/-! Max-sum run of the same chain, with real-valued (log-domain)
messages. -/

/-- Elementwise sum of real vectors, as in `listSumQ`. -/
noncomputable def listSumR : List (List ℝ) → List ℝ
  | [] => []
  | v :: vs => vs.foldl (fun acc w => List.zipWith (· + ·) acc w) v

/-- `Variable.send_ms_msg` with real scalars (for the latent chain
variables `latent = true` throughout). -/
noncomputable def varMsR (latent : Bool) (observed : List ℝ) (num_states : ℕ)
    (neighbours : List CN) (inbox : CN → Option (List ℝ)) (tgt : CN) :
    List ℝ :=
  if latent = false then observed
  else
    let nbs := neighbours.filter (fun nb => nb ≠ tgt)
    if nbs = [] then List.replicate num_states 0
    else listSumR (nbs.map (fun nb => (inbox nb).getD []))

/-- The pairwise potential over ℝ. -/
noncomputable def f12R : ℕ → ℕ → ℝ := fun a b =>
  if a = 0 then (if b = 0 then 9 / 10 else 1 / 10)
  else (if b = 0 then 2 / 10 else 8 / 10)

/-- A stored optional real message as an index function. -/
noncomputable def msgFunR (o : Option (List ℝ)) : ℕ → ℝ :=
  fun i => (o.getD []).getD i 0

/-- A length-2 real message function back as a list. -/
noncomputable def funToList2R (g : ℕ → ℝ) : List ℝ :=
  [g 0, g 1]

/-- Global max-sum state. -/
def MsState : Type := CN → CN → Option (List ℝ)

/-- The max-sum message each chain node sends to a target, per the
node's `send_ms_msg`. -/
noncomputable def msMsg (s : MsState) : CN → CN → List ℝ
  | CN.X1, tgt =>
      varMsR true (List.replicate 2 1) 2 (nbrsC CN.X1) (s CN.X1) tgt
  | CN.X2, tgt =>
      varMsR true (List.replicate 2 1) 2 (nbrsC CN.X2) (s CN.X2) tgt
  | CN.F1, _ => factor1SendMs [1 / 2, 1 / 2]
  | CN.F12, tgt =>
      funToList2R (factorSendMs2 2 2 f12R
        (msgFunR (s CN.F12 CN.X1)) (msgFunR (s CN.F12 CN.X2))
        (if tgt = CN.X1 then 0 else 1))

/-- Delivering one max-sum send. -/
noncomputable def msStep (s : MsState) (p : CN × CN) : MsState :=
  fun r snd =>
    if r = p.2 ∧ snd = p.1 then some (msMsg s p.1 p.2) else s r snd

/-- Initial max-sum state. -/
noncomputable def msInit : MsState := fun _ _ => none

/-- State after running `sum_product(chainOrder, max_sum=True)`. -/
noncomputable def msFinal : MsState :=
  (schedulerSends nbrsC chainOrder).foldl msStep msInit

/-- Tail of `np.argmax`: best index, its value, and the index of the
next element; a strictly greater element replaces the best, so ties
keep the first occurrence. -/
noncomputable def argmaxGo : ℕ → ℝ → ℕ → List ℝ → ℕ
  | best, _, _, [] => best
  | best, bv, i, y :: ys =>
      if bv < y then argmaxGo i y (i + 1) ys else argmaxGo best bv (i + 1) ys

/-- Embedding of `np.argmax` on a 1-D array (empty arrays are a numpy
error and never occur here). -/
noncomputable def argmaxL : List ℝ → ℕ
  | [] => 0
  | x :: xs => argmaxGo 0 x 1 xs

/-- Embedding of `best_value(X2)` after the max-sum run: the argmax of
the elementwise sum of `X2.in_msgs.values()` (`X2` has the single
neighbour `f12`, so the dict-ordering of `values()` is immaterial). -/
noncomputable def bestValueX2 : ℕ :=
  argmaxL (listSumR ((nbrsC CN.X2).filterMap (msFinal CN.X2)))

/-! ## Theorems -/

/-! ### Bridging lemmas: the left folds of `zipWith` performed by the
code compute the entrywise product / sum of the message vectors. -/

lemma map_getD_range (l : List ℚ) :
    (List.range l.length).map (fun i => l.getD i 0) = l := by
  induction l with
  | nil => simp
  | cons x xs ih =>
      rw [List.length_cons, List.range_succ_eq_map, List.map_cons, List.map_map]
      have h1 : ((fun i => (x :: xs).getD i 0) ∘ Nat.succ) =
          (fun i => xs.getD i 0) := by
        funext i
        simp [List.getD_cons_succ]
      rw [h1, ih]
      simp [List.getD_cons_zero]

lemma foldl_zipWith_mul (L : ℕ) (vs : List (List ℚ)) :
    ∀ acc : List ℚ, acc.length = L → (∀ w ∈ vs, w.length = L) →
      vs.foldl (fun a w => List.zipWith (· * ·) a w) acc =
        (List.range L).map
          (fun i => acc.getD i 0 * (vs.map (fun m => m.getD i 0)).prod) := by
  induction vs with
  | nil =>
      intro acc hacc _
      simp only [List.foldl_nil, List.map_nil, List.prod_nil, mul_one]
      rw [← hacc, map_getD_range]
  | cons w ws ih =>
      intro acc hacc hlen
      have hw : w.length = L := hlen w (by simp)
      have hacc' : (List.zipWith (· * ·) acc w).length = L := by
        rw [List.length_zipWith, hacc, hw, min_self]
      rw [List.foldl_cons,
        ih (List.zipWith (· * ·) acc w) hacc'
          (fun u hu => hlen u (by simp [hu]))]
      refine List.map_congr_left (fun i hi => ?_)
      have hiL : i < L := List.mem_range.mp hi
      have h2 : (List.zipWith (· * ·) acc w).getD i 0 =
          acc.getD i 0 * w.getD i 0 := by
        rw [List.getD_eq_getElem _ _ (hacc' ▸ hiL),
          List.getD_eq_getElem _ _ (hacc ▸ hiL),
          List.getD_eq_getElem _ _ (hw ▸ hiL)]
        exact List.getElem_zipWith
      rw [h2, List.map_cons, List.prod_cons, mul_assoc]

lemma foldl_zipWith_add (L : ℕ) (vs : List (List ℚ)) :
    ∀ acc : List ℚ, acc.length = L → (∀ w ∈ vs, w.length = L) →
      vs.foldl (fun a w => List.zipWith (· + ·) a w) acc =
        (List.range L).map
          (fun i => acc.getD i 0 + (vs.map (fun m => m.getD i 0)).sum) := by
  induction vs with
  | nil =>
      intro acc hacc _
      simp only [List.foldl_nil, List.map_nil, List.sum_nil, add_zero]
      rw [← hacc, map_getD_range]
  | cons w ws ih =>
      intro acc hacc hlen
      have hw : w.length = L := hlen w (by simp)
      have hacc' : (List.zipWith (· + ·) acc w).length = L := by
        rw [List.length_zipWith, hacc, hw, min_self]
      rw [List.foldl_cons,
        ih (List.zipWith (· + ·) acc w) hacc'
          (fun u hu => hlen u (by simp [hu]))]
      refine List.map_congr_left (fun i hi => ?_)
      have hiL : i < L := List.mem_range.mp hi
      have h2 : (List.zipWith (· + ·) acc w).getD i 0 =
          acc.getD i 0 + w.getD i 0 := by
        rw [List.getD_eq_getElem _ _ (hacc' ▸ hiL),
          List.getD_eq_getElem _ _ (hacc ▸ hiL),
          List.getD_eq_getElem _ _ (hw ▸ hiL)]
        exact List.getElem_zipWith
      rw [h2, List.map_cons, List.sum_cons, add_assoc]

lemma listProd_eq_pointwiseProd (L : ℕ) (msgs : List (List ℚ))
    (hne : msgs ≠ []) (hlen : ∀ m ∈ msgs, m.length = L) :
    listProd msgs = pointwiseProd L msgs := by
  cases msgs with
  | nil => exact absurd rfl hne
  | cons v vs =>
      rw [listProd,
        foldl_zipWith_mul L vs v (hlen v (by simp))
          (fun w hw => hlen w (by simp [hw]))]
      refine List.map_congr_left (fun i _ => ?_)
      rw [List.map_cons, List.prod_cons]

lemma listSumQ_eq_pointwiseSum (L : ℕ) (msgs : List (List ℚ))
    (hne : msgs ≠ []) (hlen : ∀ m ∈ msgs, m.length = L) :
    listSumQ msgs = pointwiseSum L msgs := by
  cases msgs with
  | nil => exact absurd rfl hne
  | cons v vs =>
      rw [listSumQ,
        foldl_zipWith_add L vs v (hlen v (by simp))
          (fun w hw => hlen w (by simp [hw]))]
      refine List.map_congr_left (fun i _ => ?_)
      rw [List.map_cons, List.sum_cons]

/-! ### Claims about `Variable` -/

/-- C4: `Variable.send_sp_msg(to)` delivers `observed_state` when the
variable is observed (latent = false), irrespective of inbox content;
when latent with `to` as its only neighbour it delivers the all-ones
vector of length `num_states`; and when latent with other neighbours,
all of which have stored inbox messages (of the variable's length), it
delivers the elementwise product of those messages. -/
theorem variable_send_sp_cases [DecidableEq ν] (v : Var ℚ ν) (tgt : ν) :
    (v.latent = false → v.sendSpValue tgt = v.observed_state) ∧
    (v.latent = true → v.neighbours = [tgt] →
      v.sendSpValue tgt = List.replicate v.num_states 1) ∧
    (v.latent = true →
      v.neighbours.filter (fun nb => nb ≠ tgt) ≠ [] →
      (∀ nb ∈ v.neighbours.filter (fun nb => nb ≠ tgt),
        ∃ m, v.in_msgs nb = some m ∧ m.length = v.num_states) →
      v.sendSpValue tgt =
        pointwiseProd v.num_states
          ((v.neighbours.filter (fun nb => nb ≠ tgt)).map
            (fun nb => (v.in_msgs nb).getD []))) := by
  refine ⟨fun hobs => by rw [Var.sendSpValue, if_pos hobs], ?_, ?_⟩
  · intro hlat hnb
    rw [Var.sendSpValue, if_neg (by simp [hlat]), hnb]
    simp
  · intro hlat hne hmsgs
    rw [Var.sendSpValue, if_neg (by simp [hlat])]
    simp only
    rw [if_neg hne]
    refine listProd_eq_pointwiseProd v.num_states _ (by simpa using hne) ?_
    intro m hm
    obtain ⟨nb, hnb, hnbm⟩ := List.mem_map.mp hm
    obtain ⟨m', hm', hlen'⟩ := hmsgs nb hnb
    rw [← hnbm, hm']
    exact hlen'

/-- Witness for C4: the latent else-branch at a concrete variable. -/
theorem variable_send_sp_cases_witness :
    vW.sendSpValue 1 = pointwiseProd 2 [[2, 3]] :=
  (variable_send_sp_cases vW 1).2.2 rfl (by decide)
    (by
      intro nb hnb
      have hnb0 : nb = 0 := by
        have h' := hnb
        simp only [vW, List.mem_filter, List.mem_cons,
          List.not_mem_nil, or_false, decide_not] at h'
        rcases h' with ⟨h01, hne1⟩
        rcases h01 with rfl | rfl
        · rfl
        · simp at hne1
      subst hnb0
      exact ⟨[2, 3], rfl, rfl⟩)

/-- C5: `Variable.send_ms_msg(to)` follows the same case partition:
observed variables send `observed_state`; a latent variable whose only
neighbour is `to` sends the all-zero vector of length `num_states`;
otherwise the message is the elementwise sum of the inbox messages of
the neighbours other than `to`. -/
theorem variable_send_ms_cases [DecidableEq ν] (v : Var ℚ ν) (tgt : ν) :
    (v.latent = false → v.sendMsValue tgt = v.observed_state) ∧
    (v.latent = true → v.neighbours = [tgt] →
      v.sendMsValue tgt = List.replicate v.num_states 0) ∧
    (v.latent = true →
      v.neighbours.filter (fun nb => nb ≠ tgt) ≠ [] →
      (∀ nb ∈ v.neighbours.filter (fun nb => nb ≠ tgt),
        ∃ m, v.in_msgs nb = some m ∧ m.length = v.num_states) →
      v.sendMsValue tgt =
        pointwiseSum v.num_states
          ((v.neighbours.filter (fun nb => nb ≠ tgt)).map
            (fun nb => (v.in_msgs nb).getD []))) := by
  refine ⟨fun hobs => by rw [Var.sendMsValue, if_pos hobs], ?_, ?_⟩
  · intro hlat hnb
    rw [Var.sendMsValue, if_neg (by simp [hlat]), hnb]
    simp
  · intro hlat hne hmsgs
    rw [Var.sendMsValue, if_neg (by simp [hlat])]
    simp only
    rw [if_neg hne]
    refine listSumQ_eq_pointwiseSum v.num_states _ (by simpa using hne) ?_
    intro m hm
    obtain ⟨nb, hnb, hnbm⟩ := List.mem_map.mp hm
    obtain ⟨m', hm', hlen'⟩ := hmsgs nb hnb
    rw [← hnbm, hm']
    exact hlen'

/-- Witness for C5 at the same concrete variable. -/
theorem variable_send_ms_cases_witness :
    vW.sendMsValue 1 = pointwiseSum 2 [[2, 3]] :=
  (variable_send_ms_cases vW 1).2.2 rfl (by decide)
    (by
      intro nb hnb
      have hnb0 : nb = 0 := by
        have h' := hnb
        simp only [vW, List.mem_filter, List.mem_cons,
          List.not_mem_nil, or_false, decide_not] at h'
        rcases h' with ⟨h01, hne1⟩
        rcases h01 with rfl | rfl
        · rfl
        · simp at hne1
      subst hnb0
      exact ⟨[2, 3], rfl, rfl⟩)

/-- C6 counterexample: supplying the normalization constant `Z = 0`
does not make `marginal` return the supplied constant.  Python's
`if not Z:` treats `0` like `None`, so the code recomputes
`Z = sum(prob) = 4` and returns that instead of the supplied `0`. -/
theorem marginal_supplied_zero_recomputed :
    (vC6.marginal (some 0)).2 = 4 ∧ (4 : ℚ) ≠ 0 := by
  constructor
  · norm_num [Var.marginal, vC6, listProd]
  · norm_num

/-- C6 as amended: `marginal` multiplies the inbox messages of all
neighbours into `P`; with no `Z` supplied, or with `Z = 0` supplied
(Python falsiness), it returns `(P / sum P, sum P)`; with a nonzero
`Z` supplied it returns `(P / Z, Z)`. -/
theorem marginal_cases (v : Var ℚ ν) (hne : v.neighbours ≠ [])
    (hmsgs : ∀ nb ∈ v.neighbours,
      ∃ m, v.in_msgs nb = some m ∧ m.length = v.num_states) :
    v.marginal none =
      ((pointwiseProd v.num_states
          (v.neighbours.map (fun nb => (v.in_msgs nb).getD []))).map
        (fun x => x /
          (pointwiseProd v.num_states
            (v.neighbours.map (fun nb => (v.in_msgs nb).getD []))).sum),
        (pointwiseProd v.num_states
          (v.neighbours.map (fun nb => (v.in_msgs nb).getD []))).sum) ∧
    v.marginal (some 0) = v.marginal none ∧
    (∀ z : ℚ, z ≠ 0 → v.marginal (some z) =
      ((pointwiseProd v.num_states
          (v.neighbours.map (fun nb => (v.in_msgs nb).getD []))).map
        (fun x => x / z), z)) := by
  have hprod : listProd (v.neighbours.map (fun nb => (v.in_msgs nb).getD [])) =
      pointwiseProd v.num_states
        (v.neighbours.map (fun nb => (v.in_msgs nb).getD [])) := by
    refine listProd_eq_pointwiseProd v.num_states _ (by simpa using hne) ?_
    intro m hm
    obtain ⟨nb, hnb, hnbm⟩ := List.mem_map.mp hm
    obtain ⟨m', hm', hlen'⟩ := hmsgs nb hnb
    rw [← hnbm, hm']
    exact hlen'
  refine ⟨?_, ?_, ?_⟩
  · simp only [Var.marginal, hprod]
  · simp only [Var.marginal, hprod]
    norm_num
  · intro z hz
    simp only [Var.marginal, hprod]
    simp [hz]

/-- Witness for the amended C6 at the concrete variable `vC6`. -/
theorem marginal_cases_witness :
    vC6.marginal none = ([1 / 2, 1 / 2], 4) ∧
    vC6.marginal (some 0) = vC6.marginal none ∧
    vC6.marginal (some 8) = ([1 / 4, 1 / 4], 8) := by
  have h := marginal_cases vC6 (by decide)
    (by
      intro nb hnb
      have hnb0 : nb = 0 := by
        simpa [vC6] using hnb
      subst hnb0
      exact ⟨[2, 2], rfl, rfl⟩)
  refine ⟨?_, h.2.1, ?_⟩
  · rw [h.1]
    norm_num [pointwiseProd, vC6, List.range_succ]
  · rw [h.2.2 8 (by norm_num)]
    norm_num [pointwiseProd, vC6, List.range_succ]

/-- C7: at an all-zero inbox product, `marginal()` computes `Z = 0`
and still performs the division and returns normally — there is no
guard and no error path in the code (numpy emits NaN entries with only
a runtime warning).  The embedded function returns a junk quotient and
the zero constant instead of surfacing a computation error. -/
theorem marginal_zero_Z_not_guarded :
    vC7.marginal none = ([0, 0], 0) := by
  norm_num [Var.marginal, vC7, listProd]

/-- C10: `Variable.reset()` does not touch the `latent` flag.  After
`set_observed(k)` and then `reset()`, the variable is still marked
observed while `observed_state` is back to all-ones, so both send
operations deliver the all-ones vector regardless of the target and of
any inbox content. -/
theorem reset_keeps_observed_flag [DecidableEq ν] (v : Var ℚ ν) (k : ℕ)
    (hk : k < v.num_states) (tgt : ν) :
    ((v.set_observed k).reset).latent = false ∧
    ((v.set_observed k).reset).observed_state =
      List.replicate v.num_states 1 ∧
    ((v.set_observed k).reset).sendSpValue tgt =
      List.replicate v.num_states 1 ∧
    ((v.set_observed k).reset).sendMsValue tgt =
      List.replicate v.num_states 1 := by
  refine ⟨rfl, rfl, ?_, ?_⟩
  · have hlat : ((v.set_observed k).reset).latent = false := rfl
    rw [Var.sendSpValue, if_pos hlat]
    rfl
  · have hlat : ((v.set_observed k).reset).latent = false := rfl
    rw [Var.sendMsValue, if_pos hlat]
    rfl

/-- Witness for C10 at a concrete observed-then-reset variable. -/
theorem reset_keeps_observed_flag_witness :
    0 < vW.num_states ∧
    ((vW.set_observed 0).reset).latent = false ∧
    ((vW.set_observed 0).reset).sendSpValue 1 = [1, 1] :=
  ⟨by decide,
    (reset_keeps_observed_flag vW 0 (by decide) 1).1,
    (reset_keeps_observed_flag vW 0 (by decide) 1).2.2.1⟩

/-! ### Claims about `Factor` messages -/

lemma insertNth_section (t : Fin (n + 1)) (z : Fin (n + 1) → ℕ) (b : ℕ)
    (hz : z t = b) :
    t.insertNth b (fun j => z (t.succAbove j)) = z := by
  funext i
  by_cases hi : i = t
  · subst hi
    rw [Fin.insertNth_apply_same, hz]
  · obtain ⟨j, rfl⟩ := Fin.exists_succAbove_eq hi
    rw [Fin.insertNth_apply_succAbove]

lemma spec_sum_eq_insertNth_sum (n : ℕ) (d : Fin (n + 1) → ℕ)
    (f : (Fin (n + 1) → ℕ) → ℚ) (m : Fin (n + 1) → ℕ → ℚ)
    (t : Fin (n + 1)) (b : ℕ) (hb : b < d t) :
    specFactorMsg n d f m t b =
      ∑ y ∈ Fintype.piFinset (fun j : Fin n => Finset.range (d (t.succAbove j))),
        f (t.insertNth b y) * ∏ j : Fin n, m (t.succAbove j) (y j) := by
  rw [specFactorMsg, ← Finset.sum_filter]
  refine Finset.sum_nbij' (fun z => fun j => z (t.succAbove j))
    (fun y => t.insertNth b y) ?_ ?_ ?_ ?_ ?_
  · intro z hz
    rw [Fintype.mem_piFinset]
    intro j
    exact Fintype.mem_piFinset.mp (Finset.mem_filter.mp hz).1 (t.succAbove j)
  · intro y hy
    rw [Finset.mem_filter]
    constructor
    · rw [Fintype.mem_piFinset]
      intro i
      by_cases hi : i = t
      · subst hi
        simp only [Fin.insertNth_apply_same]
        exact Finset.mem_range.mpr hb
      · obtain ⟨j, rfl⟩ := Fin.exists_succAbove_eq hi
        simp only [Fin.insertNth_apply_succAbove]
        exact Fintype.mem_piFinset.mp hy j
    · simp only [Fin.insertNth_apply_same]
  · intro z hz
    exact insertNth_section t z b (Finset.mem_filter.mp hz).2
  · intro y _
    funext j
    simp only [Fin.insertNth_apply_succAbove]
  · intro z hz
    rw [insertNth_section t z b (Finset.mem_filter.mp hz).2,
      Fin.prod_univ_succAbove (fun i => if i = t then 1 else m i (z i)) t,
      if_pos rfl, one_mul]
    congr 1
    refine Finset.prod_congr rfl (fun j _ => ?_)
    rw [if_neg (Fin.succAbove_ne t j)]

/-- C2: `Factor.send_sp_msg(to)` delivers the potential array itself
when `to` is the only neighbour, and otherwise the contraction of the
potential against the outer product of the other neighbours' inbox
messages over all axes except `to`'s — which equals, entry by entry,
the marginalization described by the specification: the sum over joint
assignments pinning `to`'s state of the potential times the other
messages, with the axis correspondence to the stored neighbour order
preserved exactly. -/
theorem factor_send_sp_correct (n : ℕ) (d : Fin (n + 1) → ℕ)
    (f : (Fin (n + 1) → ℕ) → ℚ) (m : Fin (n + 1) → ℕ → ℚ)
    (t : Fin (n + 1)) (b : ℕ) (hb : b < d t) :
    factorSendSp n d f m t b = specFactorMsg n d f m t b ∧
    (n = 0 → factorSendSp n d f m t b = f (fun _ => b)) := by
  constructor
  · rw [spec_sum_eq_insertNth_sum n d f m t b hb]
    cases n with
    | zero =>
        show f (fun _ => b) = _
        have hy : (fun j : Fin 0 => (0 : ℕ)) ∈
            Fintype.piFinset
              (fun j : Fin 0 => Finset.range (d (t.succAbove j))) := by
          rw [Fintype.mem_piFinset]
          intro j
          exact j.elim0
        rw [Finset.sum_eq_single_of_mem _ hy
          (fun y' _ hne => absurd (funext fun j => j.elim0) hne)]
        have hins : t.insertNth b (fun j : Fin 0 => (0 : ℕ)) =
            (fun _ => b) := by
          funext i
          have hi1 := i.isLt
          have ht1 := t.isLt
          have hit : i = t := Fin.ext (by omega)
          subst hit
          rw [Fin.insertNth_apply_same]
        rw [hins]
        simp
    | succ k => rfl
  · intro h0
    subst h0
    rfl

/-- Witness for C2 at the pairwise potential `f12` with target axis 1
and inbox message `[1/2, 1/2]` from the other neighbour. -/
theorem factor_send_sp_correct_witness :
    (0 : ℕ) < 2 ∧
    factorSendSp 1 (fun _ => 2) (fun z => f12Q (z 0) (z 1))
        (fun _ i => if i = 0 then 1 / 2 else 1 / 2) 1 0 =
      specFactorMsg 1 (fun _ => 2) (fun z => f12Q (z 0) (z 1))
        (fun _ i => if i = 0 then 1 / 2 else 1 / 2) 1 0 :=
  ⟨by norm_num,
    (factor_send_sp_correct 1 (fun _ => 2) (fun z => f12Q (z 0) (z 1))
      (fun _ i => if i = 0 then 1 / 2 else 1 / 2) 1 0 (by norm_num)).1⟩

/-- C1: the max-sum factor message is mis-aligned.  Failing input: a
rank-2 factor over two binary variables with all-ones potential
(`log` of it is identically 0), stored inbox message `[0, 1]` from the
first neighbour, message sent to the second neighbour (`other_i = 1`).
The code's tile/rollaxis construction leaves the stored message on the
trailing axis, which broadcasting aligns with the target's own axis, so
the entry sent for state `b` is `max_a (log 1 + m0 b) = m0 b` and entry
0 is 0; the claim prescribes broadcasting `m0` along its own
neighbour's axis, giving `max_a (log 1 + m0 a) = 1` at every entry. -/
theorem factor_send_ms_misaligned :
    factorSendMs2 2 2 (fun _ _ => 1) (fun a => (a : ℝ)) (fun _ => 0) 1 0 = 0 ∧
    factorSpecMs2 2 2 (fun _ _ => 1) (fun a => (a : ℝ)) (fun _ => 0) 1 0 = 1 := by
  constructor
  · simp [factorSendMs2, amaxRange, Real.log_one]
  · simp [factorSpecMs2, amaxRange, Real.log_one]

/-! ### Claims about `Factor.__init__` -/

/-- C8 counterexample: constructing a factor with potential shape
`[2, 3]` over two binary neighbours: the rank matches, the axis check
passes for the first neighbour — registering the bidirectional edge,
i.e. appending the factor to that neighbour's list — and then fails for
the second.  Construction fails, but the first neighbour's list has
changed from `[]` to `["f"]`, contradicting the claim that every
neighbour's list is left exactly as it was. -/
theorem factor_init_not_atomic :
    (factorInit (fun _ : Fin 2 => 2) "f" [2, 3] [0, 1] (fun _ => [])).2
        = false ∧
    (factorInit (fun _ : Fin 2 => 2) "f" [2, 3] [0, 1] (fun _ => [])).1 0
        = ["f"] := by
  constructor <;> rfl

/-- C8 as amended: the rank check (`len(neighbours) == f.ndim`) runs
before any registration, so a rank mismatch fails fast with every
neighbour's list unchanged; the per-axis check runs inside the
registration loop, so an axis-length mismatch stops construction but
keeps the bidirectional edges already registered for the neighbours
before the offending index — registration is not atomic.  The loop is
characterized exactly: it appends the factor to the longest matching
prefix of neighbours and succeeds iff every axis matches. -/
theorem factor_init_characterized [DecidableEq ι] (numStates : ι → ℕ)
    (fname : String) :
    (∀ (shape : List ℕ) (nbs : List ι) (env : ι → List String),
      nbs.length ≠ shape.length →
        factorInit numStates fname shape nbs env = (env, false)) ∧
    (∀ (pairs : List (ι × ℕ)) (env : ι → List String),
      initLoop numStates fname pairs env =
        (appendAll fname
            ((pairs.takeWhile (axisOk numStates)).map Prod.fst) env,
          (pairs.dropWhile (axisOk numStates)).isEmpty)) := by
  constructor
  · intro shape nbs env hne
    rw [factorInit, if_neg hne]
  · intro pairs
    induction pairs with
    | nil => intro env; rfl
    | cons p rest ih =>
        intro env
        obtain ⟨nb, dim⟩ := p
        by_cases h : dim = numStates nb
        · simp only [initLoop, if_pos h, List.takeWhile_cons,
            List.dropWhile_cons, axisOk, decide_eq_true_eq, h, if_true,
            List.map_cons]
          rw [ih]
          rfl
        · simp only [initLoop, if_neg h, List.takeWhile_cons,
            List.dropWhile_cons, axisOk, decide_eq_true_eq, h, if_false,
            List.map_nil]
          rfl

/-- Witness for the amended C8: a rank mismatch at a concrete input
leaves the environment untouched and fails. -/
theorem factor_init_characterized_witness :
    ([0] : List (Fin 2)).length ≠ ([2, 2] : List ℕ).length ∧
    factorInit (fun _ : Fin 2 => 2) "g" [2, 2] [0] (fun _ => []) =
      ((fun _ => []), false) :=
  ⟨by decide,
    (factor_init_characterized (fun _ : Fin 2 => 2) "g").1 [2, 2] [0]
      (fun _ => []) (by decide)⟩

/-! ### The scheduler sends each directed edge exactly once -/

lemma count_map_pair [DecidableEq ν] (u v x : ν) (lst : List ν) :
    (lst.map (fun nb => (x, nb))).count (u, v) =
      if x = u then lst.count v else 0 := by
  induction lst with
  | nil => simp
  | cons a as ih =>
      by_cases hxu : x = u
      · subst hxu
        by_cases hav : a = v
        · subst hav
          simp [List.count_cons, ih]
        · simp [List.count_cons, ih, hav, Prod.ext_iff]
      · simp [List.count_cons, ih, hxu, Prod.ext_iff]

lemma sweep_count_zero [DecidableEq ν] (nbrs : ν → List ν) (u v : ν) :
    ∀ (l seen : List ν), u ∉ l →
      (sweepSends nbrs seen l).count (u, v) = 0 := by
  intro l
  induction l with
  | nil => intro seen _; rfl
  | cons x rest ih =>
      intro seen hu
      have hxu : x ≠ u := fun h => hu (h ▸ List.mem_cons_self x rest)
      simp only [sweepSends]
      rw [List.count_append, count_map_pair, if_neg hxu,
        ih (seen ++ [x]) (fun h => hu (List.mem_cons_of_mem x h))]

lemma sweep_count_at [DecidableEq ν] (nbrs : ν → List ν) (u v : ν)
    (hnb : (nbrs u).Nodup) :
    ∀ (l₁ l₂ seen : List ν), u ∉ l₁ → u ∉ l₂ →
      (sweepSends nbrs seen (l₁ ++ u :: l₂)).count (u, v) =
        if v ∈ nbrs u ∧ v ∉ seen ∧ v ∉ l₁ then 1 else 0 := by
  intro l₁
  induction l₁ with
  | nil =>
      intro l₂ seen _ hu2
      rw [List.nil_append]
      simp only [sweepSends]
      rw [List.count_append, count_map_pair, if_pos rfl,
        sweep_count_zero nbrs u v l₂ (seen ++ [u]) hu2, Nat.add_zero]
      by_cases hvn : v ∈ nbrs u
      · by_cases hvs : v ∈ seen
        · have hnot : v ∉ (nbrs u).filter (fun nb => nb ∉ seen) := by
            simp [List.mem_filter, hvs]
          rw [List.count_eq_zero_of_not_mem hnot]
          simp [hvs]
        · have hmemf : v ∈ (nbrs u).filter (fun nb => nb ∉ seen) := by
            simp [List.mem_filter, hvn, hvs]
          rw [List.count_eq_one_of_mem (hnb.filter _) hmemf]
          simp [hvn, hvs]
      · have hnot : v ∉ (nbrs u).filter (fun nb => nb ∉ seen) := by
          simp [List.mem_filter, hvn]
        rw [List.count_eq_zero_of_not_mem hnot]
        simp [hvn]
  | cons x l₁ ih =>
      intro l₂ seen hu1 hu2
      have hxu : x ≠ u := fun h => hu1 (h ▸ List.mem_cons_self x l₁)
      have hu1' : u ∉ l₁ := fun h => hu1 (List.mem_cons_of_mem x h)
      rw [List.cons_append]
      simp only [sweepSends]
      rw [List.count_append, count_map_pair, if_neg hxu, Nat.zero_add,
        ih l₂ (seen ++ [x]) hu1' hu2]
      refine if_congr ?_ rfl rfl
      constructor
      · rintro ⟨h1, h2, h3⟩
        refine ⟨h1, fun hs => h2 (List.mem_append_left _ hs), fun hx => ?_⟩
        rcases List.mem_cons.mp hx with rfl | hx'
        · exact h2 (List.mem_append_right _ (List.mem_singleton_self _))
        · exact h3 hx'
      · rintro ⟨h1, h2, h3⟩
        refine ⟨h1, fun hs => ?_,
          fun hx => h3 (List.mem_cons_of_mem x hx)⟩
        rcases List.mem_append.mp hs with hs' | hs'
        · exact h2 hs'
        · rw [List.mem_singleton] at hs'
          exact h3 (hs' ▸ List.mem_cons_self x l₁)

lemma count_fst_filter_snd [DecidableEq ν] (u v : ν) :
    ∀ s : List (ν × ν),
      ((s.filter (fun p => p.2 = u)).map Prod.fst).count v =
        s.count (v, u) := by
  intro s
  induction s with
  | nil => rfl
  | cons p rest ih =>
      obtain ⟨a, b⟩ := p
      by_cases hbu : b = u
      · subst hbu
        by_cases hav : a = v
        · subst hav
          simp [List.filter_cons, List.count_cons, ih]
        · simp [List.filter_cons, List.count_cons, ih, hav, Prod.ext_iff]
      · simp [List.filter_cons, List.count_cons, ih, hbu, Prod.ext_iff]

lemma scheduler_count [DecidableEq ν] (nbrs : ν → List ν) (l : List ν)
    (hnd : l.Nodup) (u v : ν) (hu : u ∈ l) (hv : v ∈ l) (hvn : v ∈ nbrs u)
    (hnbu : (nbrs u).Nodup) (huv : u ≠ v) :
    (schedulerSends nbrs l).count (u, v) = 1 := by
  obtain ⟨l₁, l₂, rfl⟩ := List.append_of_mem hu
  have hnd2 : (u :: l₂).Nodup := (List.nodup_append.mp hnd).2.1
  have hdisj : List.Disjoint l₁ (u :: l₂) := (List.nodup_append.mp hnd).2.2
  have hu1 : u ∉ l₁ := fun h => hdisj h (List.mem_cons_self u l₂)
  have hu2 : u ∉ l₂ := (List.nodup_cons.mp hnd2).1
  rw [schedulerSends, List.count_append,
    sweep_count_at nbrs u v hnbu l₁ l₂ [] hu1 hu2]
  have hrev : (l₁ ++ u :: l₂).reverse = l₂.reverse ++ u :: l₁.reverse := by
    rw [List.reverse_append, List.reverse_cons]
    simp
  rw [hrev, sweep_count_at nbrs u v hnbu l₂.reverse l₁.reverse []
    (by simpa using hu2) (by simpa using hu1)]
  have hv' : v ∈ l₁ ∨ v ∈ l₂ := by
    rcases List.mem_append.mp hv with h | h
    · exact Or.inl h
    · rcases List.mem_cons.mp h with h' | h'
      · exact absurd h'.symm huv
      · exact Or.inr h'
  rcases hv' with hv1 | hv2
  · have hvn2 : v ∉ l₂ := fun h =>
      (List.disjoint_left.mp hdisj) hv1 (List.mem_cons_of_mem u h)
    rw [if_neg (by simp [hv1]),
      if_pos ⟨hvn, by simp, by simpa using hvn2⟩]
  · have hvn1 : v ∉ l₁ := fun h =>
      (List.disjoint_left.mp hdisj) h (List.mem_cons_of_mem u hv2)
    rw [if_pos ⟨hvn, by simp, hvn1⟩,
      if_neg (by simp [hv2])]

/-- C3: for any duplicate-free node sequence covering the whole graph
(in particular any valid linearization of a tree-shaped factor graph),
with bidirectional, irreflexive, duplicate-free neighbour lists, the
two-sweep scheduler sends along every edge exactly one message in each
direction, and every node's inbox ends up holding exactly one delivered
message per neighbour (the inbox keyed by sender receives the pair
`(v, u)` exactly once for each neighbour `v` of `u`). -/
theorem scheduler_two_sweeps_each_edge_once [DecidableEq ν]
    (nbrs : ν → List ν) (l : List ν) (hnd : l.Nodup)
    (hclosed : ∀ u ∈ l, ∀ v ∈ nbrs u, v ∈ l)
    (hsym : ∀ u v : ν, v ∈ nbrs u → u ∈ nbrs v)
    (hirr : ∀ u : ν, u ∉ nbrs u)
    (hnb : ∀ u : ν, (nbrs u).Nodup) :
    ∀ u ∈ l, ∀ v ∈ nbrs u,
      (schedulerSends nbrs l).count (u, v) = 1 ∧
      (schedulerSends nbrs l).count (v, u) = 1 ∧
      (((schedulerSends nbrs l).filter
          (fun p => p.2 = u)).map Prod.fst).count v = 1 := by
  intro u hu v hv
  have huv : u ≠ v := by
    intro h
    subst h
    exact hirr u hv
  have hvl : v ∈ l := hclosed u hu v hv
  refine ⟨scheduler_count nbrs l hnd u v hu hvl hv (hnb u) huv,
    scheduler_count nbrs l hnd v u hvl hu (hsym u v hv) (hnb v) huv.symm,
    ?_⟩
  rw [count_fst_filter_snd]
  exact scheduler_count nbrs l hnd v u hvl hu (hsym u v hv) (hnb v) huv.symm

/-- Witness for C3 on the concrete chain and its linearization. -/
theorem scheduler_two_sweeps_witness :
    (schedulerSends nbrsC chainOrder).count (CN.X1, CN.F12) = 1 ∧
    (schedulerSends nbrsC chainOrder).count (CN.F12, CN.X1) = 1 :=
  let h := scheduler_two_sweeps_each_edge_once nbrsC chainOrder
    (by decide) (by decide) (by decide) (by decide) (by decide)
    CN.X1 (by decide) CN.F12 (by decide)
  ⟨h.1, h.2.1⟩

/-! ### The concrete chain run (claim C9) -/

lemma sum_piFinset_one (n : ℕ) (g : (Fin 1 → ℕ) → ℚ) :
    ∑ y ∈ Fintype.piFinset (fun _ : Fin 1 => Finset.range n), g y =
      ∑ k ∈ Finset.range n, g (fun _ => k) := by
  refine Finset.sum_nbij' (fun y => y 0) (fun k => fun _ => k) ?_ ?_ ?_ ?_ ?_
  · intro y hy
    exact Fintype.mem_piFinset.mp hy 0
  · intro k hk
    rw [Fintype.mem_piFinset]
    intro j
    exact hk
  · intro y _
    funext j
    show y 0 = y j
    rw [Fin.eq_zero j]
  · intro k _
    rfl
  · intro y _
    congr 1
    funext j
    show y j = y 0
    rw [Fin.eq_zero j]

lemma f12_msg_to_X2 (m0 m1 : ℕ → ℚ) (b : ℕ) :
    factorSendSp 1 (fun _ => 2) (fun z => f12Q (z 0) (z 1))
        (fun i => if i = 0 then m0 else m1) 1 b =
      f12Q 0 b * m0 0 + f12Q 1 b * m0 1 := by
  show (∑ y ∈ Fintype.piFinset (fun _ : Fin 1 => Finset.range 2),
      f12Q (@Fin.insertNth 1 (fun _ => ℕ) 1 b y 0)
          (@Fin.insertNth 1 (fun _ => ℕ) 1 b y 1) *
        ∏ j : Fin 1,
          (if (1 : Fin 2).succAbove j = 0 then m0 else m1) (y j)) = _
  rw [sum_piFinset_one]
  rw [Finset.sum_range_succ, Finset.sum_range_one]
  norm_num [Fin.prod_univ_one]
  rfl

/-- C9: on the two-variable chain `X1 — f12 — X2` (binary variables,
prior `f1 = [0.5, 0.5]` on `X1`, pairwise
`f12 = [[0.9, 0.1], [0.2, 0.8]]`), running the two-sweep scheduler with
the valid linearization `[f1, X2, X1, f12]` in sum-product mode gives
`marginal(X2) = ([0.55, 0.45], 1)` exactly, and running it in max-sum
mode gives `best_value(X2) = 0`. -/
theorem chain_sum_product_and_max_sum :
    (varOf spFinal CN.X2).marginal none = ([11 / 20, 9 / 20], 1) ∧
    bestValueX2 = 0 := by
  constructor
  · have key : spFinal CN.X2 CN.F12 = some [11 / 20, 9 / 20] := by
      have e : spFinal CN.X2 CN.F12 =
          some (funToList2 (factorSendSp 1 (fun _ => 2)
            (fun z => f12Q (z 0) (z 1))
            (fun i => if i = 0 then msgFun (some [1 / 2, 1 / 2])
                      else msgFun (some [1, 1])) 1)) := rfl
      rw [e, funToList2, f12_msg_to_X2, f12_msg_to_X2]
      norm_num [msgFun, f12Q]
    simp only [Var.marginal, varOf, nbrsC, List.map_cons, List.map_nil, key,
      Option.getD_some, listProd, List.foldl_nil]
    norm_num
  · have e : msFinal CN.X2 CN.F12 =
        some (funToList2R (factorSendMs2 2 2 f12R
          (msgFunR (some [Real.log (1 / 2), Real.log (1 / 2)]))
          (msgFunR (some [(0 : ℝ), 0])) 1)) := rfl
    have hamax : ∀ h : ℕ → ℝ,
        amaxRange 2 h = max (max (h 0) (h 0)) (h 1) :=
      fun h => rfl
    have hgb : ∀ b, factorSendMs2 2 2 f12R
        (msgFunR (some [Real.log (1 / 2), Real.log (1 / 2)]))
        (msgFunR (some [(0 : ℝ), 0])) 1 b =
        amaxRange 2 (fun a => Real.log (f12R a b) +
          msgFunR (some [Real.log (1 / 2), Real.log (1 / 2)]) b) :=
      fun b => rfl
    have hm0 : msgFunR (some [Real.log (1 / 2), Real.log (1 / 2)]) 0 =
        Real.log (1 / 2) := rfl
    have hm1 : msgFunR (some [Real.log (1 / 2), Real.log (1 / 2)]) 1 =
        Real.log (1 / 2) := rfl
    simp only [bestValueX2, nbrsC, e, List.filterMap_cons, List.filterMap_nil,
      listSumR, List.foldl_nil, funToList2R, argmaxL, argmaxGo]
    rw [if_neg]
    rw [not_lt, hgb 0, hgb 1, hamax, hamax, hm0, hm1]
    have h1 : Real.log (f12R 0 1) ≤ Real.log (f12R 0 0) := by
      apply Real.log_le_log <;> norm_num [f12R]
    have h2 : Real.log (f12R 1 1) ≤ Real.log (f12R 0 0) := by
      apply Real.log_le_log <;> norm_num [f12R]
    have hle : ∀ x : ℝ, Real.log (f12R 0 0) + x ≤
        max (max (Real.log (f12R 0 0) + x) (Real.log (f12R 0 0) + x))
          (Real.log (f12R 1 0) + x) :=
      fun x => le_max_of_le_left (le_max_left _ _)
    refine le_trans (max_le (max_le ?_ ?_) ?_) (hle (Real.log (1 / 2)))
    · exact add_le_add_right h1 _
    · exact add_le_add_right h1 _
    · exact add_le_add_right h2 _

end Lab2
